import Mathlib

/-!
Shallow embedding of the hyperbloom-trust link store and chain-resolution
engine (`src/lib/trust.js`), together with proofs about its behaviour.

Modelling conventions:
* Public keys are modelled as `Nat` (the JS code compares buffers for
  equality and uses their hex strings as map keys; only equality matters).
* A raw signed link blob is modelled as a `RawLink`: an identity for its
  bytes plus the result of the external codec `parseLink` (the codec is a
  black box, so its output is simply carried by the value; `parsed = none`
  models a blob on which `parseLink` throws `MalformedLink`).
* JS `Map`s (insertion ordered) are modelled as association lists with
  `Map.set` / `Map.delete` / `Map.get` semantics (`alSet`, `alRemove`,
  `alGet`).  Iteration order of `entries()` is list order.
* `Date.now() / 1000` is passed in explicitly as the `now` argument.
* Asynchronous KV-store completions are explicit events: every `db.put` /
  `db.del` / read-stream start increments `dbUsed` (`_useDB`) and records
  one outstanding completion (`pendingFree`); the delivery of such a
  completion callback is the `completeOne` transition, which performs
  `_freeDB`.
-/

namespace Hyperbloom

/-- Result of the external codec: `{ publicKey, expiration }`
(`expiration` in Unix seconds). -/
structure Link where
  publicKey : Nat
  expiration : Nat
deriving DecidableEq, Repr

/-- A raw signed byte blob: `bytes` is an identity for the byte contents,
`parsed` is what the external `parseLink` codec yields on it (`none` when
the codec fails with `MalformedLink`). -/
structure RawLink where
  bytes : Nat
  parsed : Option Link
deriving DecidableEq, Repr

/-- Entry of a `TrustNode`'s children map: `{ link, raw }` as stored by
`TrustNode.prototype.addChild`. -/
structure Child where
  link : Link
  raw : RawLink
deriving DecidableEq, Repr

/-- Children map of a `TrustNode`: subject public key to stored child,
in insertion order (a JS `Map`). -/
abbrev Node := List (Nat × Child)

/-- Entry of the LRU chain cache: `{ expiration, chain }` as stored by
`getChain` on a successful resolution. -/
structure CacheEntry where
  expiration : Nat
  chain : List RawLink
deriving DecidableEq, Repr

/-- Work item of the `getChain` traversal: `{ node, expiration, chain }`;
`expOpt = none` models the initial `Infinity` expiration. -/
structure QItem where
  nodeKey : Nat
  expOpt : Option Nat
  chain : List RawLink
deriving DecidableEq, Repr

/-- Outcome delivered to a `getChain` caller: a chain, the
`'No trust path available'` error, or buffering in the pre-ready queue. -/
inductive GOut where
  | ok (chain : List RawLink)
  | err
  | queued
deriving DecidableEq, Repr

/-- `Map.prototype.get`. -/
def alGet {β : Type} : List (Nat × β) → Nat → Option β
  | [], _ => none
  | (k', v) :: t, k => if k' = k then some v else alGet t k

/-- `Map.prototype.set`: replace in place when the key is present,
append otherwise. -/
def alSet {β : Type} (l : List (Nat × β)) (k : Nat) (v : β) : List (Nat × β) :=
  if (alGet l k).isSome then
    l.map (fun p => if p.1 = k then (k, v) else p)
  else
    l ++ [(k, v)]

/-- `Map.prototype.delete`. -/
def alRemove {β : Type} (l : List (Nat × β)) (k : Nat) : List (Nat × β) :=
  l.filter (fun p => decide (p.1 ≠ k))

/-- `LRU_SIZE` from `src/lib/trust.js`. -/
def LRU_SIZE : Nat := 128

/-- Modelled from the spec: `MAX_CHAIN_LENGTH` comes from the external
`hyperbloom-constants` package, which is not part of this repository; the
spec describes it only as a fixed system constant bounding chain length.
We fix the concrete value 5. -/
def MAX_CHAIN_LENGTH : Nat := 5

/-- Engine state of a `Trust` instance (`src/lib/trust.js`): the link
index `graph`, the LRU chain cache, the pre-ready query queue, and the
lifecycle-barrier bookkeeping (`dbUsed`, `dbQueue`).  `closes` records the
`db.close(cb)` invocations actually issued, in order; `assertOK` records
that the `assert(this._dbUsed >= 0)` in `_freeDB` has never failed;
`loadPending` records that the initial `createReadStream` scan has not yet
emitted `end`/`error`; `pendingFree` counts outstanding asynchronous
KV-store completion callbacks. -/
structure Trust where
  publicKey : Nat
  graph : List (Nat × Node)
  lru : List (Nat × CacheEntry)
  ready : Bool
  pendingQueries : List Nat
  dbUsed : Int
  pendingFree : Nat
  dbQueue : List Nat
  closes : List Nat
  assertOK : Bool
  loadPending : Bool
deriving DecidableEq, Repr

/-- State right after the `Trust` constructor ran: empty index and cache,
not ready, and the initial `_load` range scan in flight (it performed one
`_useDB`, hence `dbUsed = 1` with one outstanding stream completion
modelled by `loadPending`). -/
def Trust.init (pk : Nat) : Trust :=
  { publicKey := pk
    graph := []
    lru := []
    ready := false
    pendingQueries := []
    dbUsed := 1
    pendingFree := 0
    dbQueue := []
    closes := []
    assertOK := true
    loadPending := true }

/-- `TrustNode.prototype.addChild`: keyed by the child link's public key,
unconditionally `Map.set`. -/
def nodeAddChild (n : Node) (c : Child) : Node :=
  alSet n c.link.publicKey c

/-- `Trust.prototype._addMemLink` with the link already parsed: fetch or
create the issuer's node and `addChild` the new `{ link, raw }`. -/
def addMemLink (s : Trust) (parent : Nat) (raw : RawLink) (link : Link) : Trust :=
  let node := (alGet s.graph parent).getD []
  { s with graph := alSet s.graph parent (nodeAddChild node ⟨link, raw⟩) }

/-- `Trust.prototype._addLink`: drop stale links (`expiration <= now`),
otherwise start a `db.put` (one `_useDB`, one outstanding completion) and
apply `_addMemLink`. -/
def addLink (s : Trust) (parent : Nat) (raw : RawLink) (link : Link) (now : Nat) : Trust :=
  if link.expiration ≤ now then s
  else
    addMemLink
      { s with dbUsed := s.dbUsed + 1, pendingFree := s.pendingFree + 1 }
      parent raw link

/-- Body of `Trust.prototype.addChain`'s `forEach`: parse each raw link
and `_addLink` it with the previous subject (initially the root) as
issuer.  A codec failure is an uncaught exception: it aborts the whole
loop, so the returned flag is `false` (the completion callback is never
scheduled) and the remaining links are not processed. -/
def addChainGo (now : Nat) : Trust → Nat → List RawLink → Trust × Bool
  | s, _, [] => (s, true)
  | s, prev, raw :: rest =>
    match raw.parsed with
    | none => (s, false)
    | some link => addChainGo now (addLink s prev raw link now) link.publicKey rest

/-- `Trust.prototype.addChain`: early return on empty input (without ever
invoking the callback), otherwise process the links in order.  The `Bool`
result tells whether the completion callback was scheduled. -/
def addChain (s : Trust) (root : Nat) (raws : List RawLink) (now : Nat) : Trust × Bool :=
  if raws = [] then (s, false)
  else addChainGo now s root raws

/-- Running minimum expiration along a path; `none` is the initial
`Infinity`. -/
def minOpt (o : Option Nat) (e : Nat) : Nat :=
  match o with
  | none => e
  | some m => min m e

/-- Inner `for ([trusteeKey, value] of item.node.children.entries())` loop
of `getChain` acting on one popped work item.  Arguments after the colon:
current graph and the remaining child entries being iterated (a JS `Map`
iterator tolerates removal of the current entry).  Returns the mutated
graph, the number of expired edges pruned (each pruning starts a `db.del`:
one `_useDB` and one outstanding completion), the work items pushed in
iteration order, and the discovered `(expiration, chain)` on a match. -/
def processChildren (pk now nodeKey : Nat) (expOpt : Option Nat)
    (chain0 : List RawLink) (visited : List Nat) :
    List (Nat × Node) → List (Nat × Child) →
      List (Nat × Node) × Nat × List QItem × Option (Nat × List RawLink)
  | g, [] => (g, 0, [], none)
  | g, (tk, value) :: rest =>
    if value.link.expiration ≤ now then
      let g1 := alSet g nodeKey (alRemove ((alGet g nodeKey).getD []) tk)
      let r := processChildren pk now nodeKey expOpt chain0 visited g1 rest
      (r.1, r.2.1 + 1, r.2.2)
    else
      let chain := chain0 ++ [value.raw]
      let e := minOpt expOpt value.link.expiration
      if value.link.publicKey = pk then
        (g, 0, [], some (e, chain))
      else if (alGet g tk).isNone then
        processChildren pk now nodeKey expOpt chain0 visited g rest
      else if tk ∈ visited then
        processChildren pk now nodeKey expOpt chain0 visited g rest
      else if MAX_CHAIN_LENGTH ≤ chain.length then
        processChildren pk now nodeKey expOpt chain0 visited g rest
      else
        let r := processChildren pk now nodeKey expOpt chain0 visited g rest
        (r.1, r.2.1, ⟨tk, some e, chain⟩ :: r.2.2.1, r.2.2.2)

/-- Outer `while (queue.length !== 0)` loop of `getChain`, with explicit
fuel.  The work stack is kept most-recently-pushed first, matching the JS
array `push`/`pop` pair; popping adds the item's node to `visited` before
iterating its children.  Returns the final graph, the total number of
pruned edges and the match, or `none` when the fuel runs out. -/
def getChainLoop (pk now : Nat) :
    Nat → List (Nat × Node) → List Nat → List QItem →
      Option (List (Nat × Node) × Nat × Option (Nat × List RawLink))
  | 0, _, _, _ => none
  | _ + 1, g, _, [] => some (g, 0, none)
  | fuel + 1, g, visited, item :: stack =>
    let visited1 := item.nodeKey :: visited
    let children := (alGet g item.nodeKey).getD []
    match processChildren pk now item.nodeKey item.expOpt item.chain visited1 g children with
    | (g1, pr, _, some found) => some (g1, pr, some found)
    | (g1, pr, pushes, none) =>
      match getChainLoop pk now fuel g1 visited1 (pushes.reverse ++ stack) with
      | none => none
      | some (g2, pr2, r) => some (g2, pr + pr2, r)

/-- Fuel bound used to run the traversal: generous polynomial in the
index size (the JS loop terminates because nodes are pushed only while
unvisited; all theorems about results are conditional on the loop
finishing, and every concrete run below finishes well within this fuel). -/
def totalEntries (g : List (Nat × Node)) : Nat :=
  g.length + (g.map (fun p => p.2.length)).sum

/-- Fresh resolution part of `getChain` (cache miss or stale cache hit):
run the traversal from `root`; on a match cache `{ expiration, chain }`
under `root` and return the chain, otherwise report
`'No trust path available'`.  Pruned edges started `db.del`s, credited to
`dbUsed`/`pendingFree`. -/
def resolveFresh (s : Trust) (root now : Nat) : GOut × Trust :=
  let fuel := (totalEntries s.graph + 2) * (totalEntries s.graph + 2)
  match getChainLoop s.publicKey now fuel s.graph [] [⟨root, none, []⟩] with
  | some (g1, pr, some found) =>
    (.ok found.2,
     { s with graph := g1
              lru := ((root, ⟨found.1, found.2⟩) :: alRemove s.lru root).take LRU_SIZE
              dbUsed := s.dbUsed + pr
              pendingFree := s.pendingFree + pr })
  | some (g1, pr, none) =>
    (.err, { s with graph := g1, dbUsed := s.dbUsed + pr, pendingFree := s.pendingFree + pr })
  | none => (.err, s)

/-- `Trust.prototype.getChain`: short-circuit on `root == publicKey`;
buffer the query while not ready; error when the root has no node; then
check the LRU cache (`cached.expiration > now` serves the cached chain,
otherwise the entry is evicted) and finally resolve afresh. -/
def getChain (s : Trust) (root now : Nat) : GOut × Trust :=
  if root = s.publicKey then (.ok [], s)
  else if s.ready = false then
    (.queued, { s with pendingQueries := s.pendingQueries ++ [root] })
  else if (alGet s.graph root).isNone then (.err, s)
  else
    match alGet s.lru root with
    | some c =>
      if now < c.expiration then (.ok c.chain, s)
      else resolveFresh { s with lru := alRemove s.lru root } root now
    | none => resolveFresh s root now

/-- `Trust.prototype._freeDB`: decrement `dbUsed`; record whether the
`assert(this._dbUsed >= 0)` held; once the counter is back to zero, run
the deferred queue — each queued entry is a `() => this.close(cb)` which,
with the counter at zero, issues `db.close(cb)`. -/
def freeDB (s : Trust) : Trust :=
  if s.dbUsed - 1 = 0 then
    { s with dbUsed := s.dbUsed - 1,
             assertOK := s.assertOK && decide (0 ≤ s.dbUsed - 1),
             closes := s.closes ++ s.dbQueue, dbQueue := [] }
  else
    { s with dbUsed := s.dbUsed - 1,
             assertOK := s.assertOK && decide (0 ≤ s.dbUsed - 1) }

/-- Delivery of one outstanding asynchronous KV-store completion callback
(of a `db.put` or `db.del`): the callback body performs `_freeDB`. -/
def completeOne (s : Trust) : Trust :=
  freeDB { s with pendingFree := s.pendingFree - 1 }

/-- `Trust.prototype.close`: while `dbUsed` is nonzero, defer by queueing
a retry; otherwise issue `db.close(cb)` immediately. -/
def closeOp (s : Trust) (cb : Nat) : Trust :=
  if s.dbUsed ≠ 0 then { s with dbQueue := s.dbQueue ++ [cb] }
  else { s with closes := s.closes ++ [cb] }

/-- Replay of the pre-ready query queue after loading: each buffered
`getChain` is re-executed in arrival order; the returned event list pairs
each replayed root with the outcome delivered to its callback. -/
def runQueued (now : Nat) : Trust → List Nat → Trust × List (Nat × GOut)
  | s, [] => (s, [])
  | s, r :: rest =>
    let x := getChain s r now
    let y := runQueued now x.2 rest
    (y.1, (r, x.1) :: y.2)

/-- `end` handler of the `_load` read stream: `_freeDB`, mark ready, take
the pending query queue and replay it in order. -/
def loadEnd (s : Trust) (now : Nat) : Trust × List (Nat × GOut) :=
  let s1 := freeDB { s with loadPending := false }
  runQueued now { s1 with ready := true, pendingQueries := [] } s1.pendingQueries

/-- `error` handler of the `_load` read stream: only `_freeDB` (the engine
never becomes ready). -/
def loadError (s : Trust) : Trust :=
  freeDB { s with loadPending := false }

/-- Those states of the engine reachable from a fresh instance by its
operations and by deliveries of its asynchronous callbacks: `data`
(`_addMemLink` of a stored edge whose raw parses), `end` and `error`
events of the initial read stream, `addChain`, `getChain`, completion of
an outstanding `db.put`/`db.del`, and `close`. -/
inductive Reachable : Trust → Prop where
  | start (pk : Nat) : Reachable (Trust.init pk)
  | loadData {s : Trust} (parent : Nat) {raw : RawLink} {link : Link} :
      raw.parsed = some link → s.loadPending = true → Reachable s →
      Reachable (addMemLink s parent raw link)
  | loadDone {s : Trust} (now : Nat) : s.loadPending = true → Reachable s →
      Reachable (loadEnd s now).1
  | loadFail {s : Trust} : s.loadPending = true → Reachable s →
      Reachable (loadError s)
  | add {s : Trust} (root : Nat) (raws : List RawLink) (now : Nat) :
      Reachable s → Reachable (addChain s root raws now).1
  | query {s : Trust} (root now : Nat) :
      Reachable s → Reachable (getChain s root now).2
  | complete {s : Trust} : 0 < s.pendingFree → Reachable s →
      Reachable (completeOne s)
  | closeReq {s : Trust} (cb : Nat) : Reachable s → Reachable (closeOp s cb)

/-- Concrete raw link used in examples: bytes identity `b`, subject `pk`,
expiration `e`. -/
def mkRaw (b pk e : Nat) : RawLink := ⟨b, some ⟨pk, e⟩⟩

/-- Concrete raw blob the codec fails to decode (`MalformedLink`). -/
def badRaw : RawLink := ⟨99, none⟩

/-- Example engine: local public key 0, initial load finished over an
empty store. -/
def exReady : Trust := (loadEnd (Trust.init 0) 0).1

/-- Example engine state: one direct link from root 1 to the local key 0,
expiring at 100, added at time 50. -/
def exState1 : Trust := (addChain exReady 1 [mkRaw 10 0 100] 50).1

/-- Example length-3 chain 1 → 2 → 3 → 0 (all links expire at 100). -/
def exLongC : List RawLink := [mkRaw 20 2 100, mkRaw 21 3 100, mkRaw 22 0 100]

/-- Example length-2 chain 1 → 4 → 0 (all links expire at 100). -/
def exShortC : List RawLink := [mkRaw 30 4 100, mkRaw 31 0 100]

/-- Example for the edge-replacement rule: an edge (issuer 7, subject 3)
with expiration 10 stored at time 5. -/
def exC2a : Trust := addLink exReady 7 (mkRaw 1 3 10) ⟨3, 10⟩ 5

/-- The same engine after a byte-different link with the same expiration
was observed for the same (issuer 7, subject 3) pair. -/
def exC2b : Trust := addLink exC2a 7 (mkRaw 2 3 10) ⟨3, 10⟩ 5

/-- Well-formedness of one stored child entry: the stored parse result is
the parse of the stored raw bytes, and the entry is keyed by the subject
public key (both enforced by `_addMemLink`/`addChild`). -/
def ChildOK (q : Nat × Child) : Prop :=
  q.2.raw.parsed = some q.2.link ∧ q.1 = q.2.link.publicKey

/-- Well-formedness of the link index. -/
def GraphInv (g : List (Nat × Node)) : Prop :=
  ∀ p ∈ g, ∀ q ∈ p.2, ChildOK q

/-- Well-formedness of one cache entry: the cached chain is within the
length bound and the cached expiration is a lower bound on every link's
expiration in the cached chain. -/
def EntryOK (e : CacheEntry) : Prop :=
  e.chain.length ≤ MAX_CHAIN_LENGTH ∧
  ∀ raw ∈ e.chain, ∃ lk, raw.parsed = some lk ∧ e.expiration ≤ lk.expiration

/-- Well-formedness of the LRU chain cache. -/
def CacheInv (l : List (Nat × CacheEntry)) : Prop := ∀ p ∈ l, EntryOK p.2

/-- Lifecycle-barrier accounting: `dbUsed` equals the number of
outstanding asynchronous completions (puts/deletes plus the initial range
scan), and the `_freeDB` assertion has never failed. -/
def CounterInv (s : Trust) : Prop :=
  s.dbUsed = (s.pendingFree : Int) + (if s.loadPending then 1 else 0) ∧
  s.assertOK = true

/-- Invariant maintained by every reachable engine state. -/
def Inv (s : Trust) : Prop := GraphInv s.graph ∧ CacheInv s.lru ∧ CounterInv s

/-- Well-formedness of a traversal work item: the accumulated chain is
strictly below the length bound, all its links are unexpired, and the
running minimum expiration bounds each of them from below. -/
def ItemOK (now : Nat) (it : QItem) : Prop :=
  it.chain.length < MAX_CHAIN_LENGTH ∧
  ∀ raw ∈ it.chain, ∃ lk, raw.parsed = some lk ∧ now < lk.expiration ∧
    ∃ m, it.expOpt = some m ∧ m ≤ lk.expiration

/-- Well-formedness of a resolved `(expiration, chain)` pair. -/
def ChainOK (now e : Nat) (ch : List RawLink) : Prop :=
  ch.length ≤ MAX_CHAIN_LENGTH ∧
  ∀ raw ∈ ch, ∃ lk, raw.parsed = some lk ∧ now < lk.expiration ∧ e ≤ lk.expiration

theorem alGet_mem {β : Type} {l : List (Nat × β)} {k : Nat} {v : β}
    (h : alGet l k = some v) : (k, v) ∈ l := by
  induction l with
  | nil => simp [alGet] at h
  | cons p t ih =>
    obtain ⟨k', v'⟩ := p
    rw [show alGet ((k', v') :: t) k = if k' = k then some v' else alGet t k from rfl] at h
    split at h
    · rename_i hk
      injection h with h1
      subst h1
      subst hk
      exact List.mem_cons_self _ _
    · exact List.mem_cons_of_mem _ (ih h)

theorem mem_alSet {β : Type} {l : List (Nat × β)} {k : Nat} {v : β} {p : Nat × β}
    (h : p ∈ alSet l k v) : p ∈ l ∨ p = (k, v) := by
  unfold alSet at h
  split at h
  · obtain ⟨q, hq, hfq⟩ := List.mem_map.mp h
    by_cases hk : q.1 = k
    · right
      rw [if_pos hk] at hfq
      exact hfq.symm
    · left
      rw [if_neg hk] at hfq
      exact hfq ▸ hq
  · rcases List.mem_append.mp h with h1 | h1
    · left; exact h1
    · right; simpa using h1

theorem mem_alRemove {β : Type} {l : List (Nat × β)} {k : Nat} {p : Nat × β}
    (h : p ∈ alRemove l k) : p ∈ l :=
  List.mem_of_mem_filter h

theorem minOpt_le_right (o : Option Nat) (e : Nat) : minOpt o e ≤ e := by
  cases o with
  | none => exact le_refl e
  | some m => exact min_le_right m e

theorem minOpt_le_some {o : Option Nat} {m : Nat} (e : Nat) (h : o = some m) :
    minOpt o e ≤ m := by
  subst h
  exact min_le_left m e

theorem GraphInv_prune {g : List (Nat × Node)} (hg : GraphInv g) (nodeKey tk : Nat) :
    GraphInv (alSet g nodeKey (alRemove ((alGet g nodeKey).getD []) tk)) := by
  intro p hp q hq
  rcases mem_alSet hp with h1 | h1
  · exact hg p h1 q hq
  · subst h1
    simp only at hq
    have hq' := mem_alRemove hq
    cases hNode : alGet g nodeKey with
    | none => rw [hNode] at hq'; simp at hq'
    | some n =>
      rw [hNode] at hq'
      exact hg (nodeKey, n) (alGet_mem hNode) q hq'

theorem GraphInv_addMemLink {s : Trust} (hg : GraphInv s.graph) (parent : Nat)
    {raw : RawLink} {link : Link} (hparse : raw.parsed = some link) :
    GraphInv (addMemLink s parent raw link).graph := by
  intro p hp q hq
  simp only [addMemLink] at hp
  rcases mem_alSet hp with h1 | h1
  · exact hg p h1 q hq
  · subst h1
    simp only at hq
    rcases mem_alSet hq with h2 | h2
    · cases hNode : alGet s.graph parent with
      | none => rw [hNode] at h2; simp at h2
      | some n =>
        rw [hNode] at h2
        exact hg (parent, n) (alGet_mem hNode) q h2
    · subst h2
      exact ⟨hparse, rfl⟩

theorem processChildren_spec (pk now nodeKey : Nat) (expOpt : Option Nat)
    (chain0 : List RawLink) (visited : List Nat)
    (hlen : chain0.length < MAX_CHAIN_LENGTH)
    (hch : ∀ raw ∈ chain0, ∃ lk, raw.parsed = some lk ∧ now < lk.expiration ∧
      ∃ m, expOpt = some m ∧ m ≤ lk.expiration) :
    ∀ (children : List (Nat × Child)) (g : List (Nat × Node)),
      GraphInv g → (∀ q ∈ children, ChildOK q) →
      GraphInv (processChildren pk now nodeKey expOpt chain0 visited g children).1 ∧
      (∀ it ∈ (processChildren pk now nodeKey expOpt chain0 visited g children).2.2.1,
          ItemOK now it) ∧
      (∀ e ch,
          (processChildren pk now nodeKey expOpt chain0 visited g children).2.2.2
            = some (e, ch) → ChainOK now e ch) := by
  intro children
  induction children with
  | nil =>
    intro g hg _
    refine ⟨by simpa [processChildren] using hg, ?_, ?_⟩ <;> simp [processChildren]
  | cons q rest ih =>
    intro g hg hcs
    obtain ⟨tk, value⟩ := q
    have hq : ChildOK (tk, value) := hcs _ (List.mem_cons_self _ _)
    have hrest : ∀ q ∈ rest, ChildOK q := fun q hq' => hcs q (List.mem_cons_of_mem _ hq')
    simp only [processChildren]
    split_ifs with hexp hmatch hnone hvis hlong
    · -- expired edge: prune and continue
      have hres := ih (alSet g nodeKey (alRemove ((alGet g nodeKey).getD []) tk))
        (GraphInv_prune hg nodeKey tk) hrest
      exact ⟨hres.1, hres.2.1, hres.2.2⟩
    · -- match: the chain is complete
      refine ⟨hg, by simp, ?_⟩
      intro e ch hfound
      simp only [Option.some.injEq, Prod.mk.injEq] at hfound
      obtain ⟨he, hc⟩ := hfound
      subst he
      subst hc
      constructor
      · simpa using hlen
      · intro raw hraw
        rcases List.mem_append.mp hraw with hmem | hmem
        · obtain ⟨lk, hp, hnow, m, hm, hle⟩ := hch raw hmem
          exact ⟨lk, hp, hnow, le_trans (minOpt_le_some _ hm) hle⟩
        · rw [List.mem_singleton] at hmem
          subst hmem
          exact ⟨value.link, hq.1, not_le.mp hexp, minOpt_le_right _ _⟩
    · -- dead end: subject has no outgoing edges
      exact ih g hg hrest
    · -- dead end: subject already visited
      exact ih g hg hrest
    · -- dead end: chain would exceed the length bound
      exact ih g hg hrest
    · -- frontier: push the subject with the extended path
      have hres := ih g hg hrest
      refine ⟨hres.1, ?_, hres.2.2⟩
      intro it hit
      rcases List.mem_cons.mp hit with hit1 | hit1
      · subst hit1
        constructor
        · exact not_le.mp hlong
        · intro raw hraw
          rcases List.mem_append.mp hraw with hmem | hmem
          · obtain ⟨lk, hp, hnow, m, hm, hle⟩ := hch raw hmem
            exact ⟨lk, hp, hnow, _, rfl, le_trans (minOpt_le_some _ hm) hle⟩
          · rw [List.mem_singleton] at hmem
            subst hmem
            exact ⟨value.link, hq.1, not_le.mp hexp, _, rfl, minOpt_le_right _ _⟩
      · exact hres.2.1 it hit1

theorem getChainLoop_spec (pk now : Nat) :
    ∀ (fuel : Nat) (g : List (Nat × Node)) (visited : List Nat) (stack : List QItem),
      GraphInv g → (∀ it ∈ stack, ItemOK now it) →
      ∀ g2 pr r, getChainLoop pk now fuel g visited stack = some (g2, pr, r) →
        GraphInv g2 ∧ ∀ e ch, r = some (e, ch) → ChainOK now e ch := by
  intro fuel
  induction fuel with
  | zero =>
    intro g visited stack _ _ g2 pr r h
    simp [getChainLoop] at h
  | succ fuel ih =>
    intro g visited stack hg hstack g2 pr r h
    cases stack with
    | nil =>
      simp only [getChainLoop, Option.some.injEq, Prod.mk.injEq] at h
      obtain ⟨hg2, _, hr⟩ := h
      subst hg2
      subst hr
      exact ⟨hg, by simp⟩
    | cons item rest =>
      have hitem := hstack item (List.mem_cons_self _ _)
      have hchildren : ∀ q ∈ (alGet g item.nodeKey).getD [], ChildOK q := by
        cases hNode : alGet g item.nodeKey with
        | none => simp
        | some n => simpa using hg (item.nodeKey, n) (alGet_mem hNode)
      have hspec := processChildren_spec pk now item.nodeKey item.expOpt item.chain
        (item.nodeKey :: visited) hitem.1 hitem.2
        ((alGet g item.nodeKey).getD []) g hg hchildren
      simp only [getChainLoop] at h
      rcases hpc : processChildren pk now item.nodeKey item.expOpt item.chain
          (item.nodeKey :: visited) g ((alGet g item.nodeKey).getD []) with
        ⟨g1, pr1, pushes, found⟩
      rw [hpc] at h hspec
      cases found with
      | some f =>
        simp only [Option.some.injEq, Prod.mk.injEq] at h
        obtain ⟨hg2, _, hr⟩ := h
        subst hg2
        subst hr
        exact ⟨hspec.1, fun e ch he => hspec.2.2 e ch (by rw [he])⟩
      | none =>
        simp only at h
        rcases hrec : getChainLoop pk now fuel g1 (item.nodeKey :: visited)
            (pushes.reverse ++ rest) with _ | ⟨g3, pr3, r3⟩
        · rw [hrec] at h
          simp at h
        · rw [hrec] at h
          simp only [Option.some.injEq, Prod.mk.injEq] at h
          obtain ⟨hg2, _, hr⟩ := h
          subst hg2
          subst hr
          have hstack' : ∀ it ∈ pushes.reverse ++ rest, ItemOK now it := by
            intro it hit
            rcases List.mem_append.mp hit with h1 | h1
            · exact hspec.2.1 it (List.mem_reverse.mp h1)
            · exact hstack it (List.mem_cons_of_mem _ h1)
          exact ih g1 (item.nodeKey :: visited) (pushes.reverse ++ rest)
            hspec.1 hstack' g3 pr3 r3 hrec

theorem Inv_intro {s : Trust} (hg : GraphInv s.graph) (hc : CacheInv s.lru)
    (hcnt : CounterInv s) : Inv s :=
  And.intro hg (And.intro hc hcnt)

theorem CounterInv_intro {s : Trust}
    (h1 : s.dbUsed = (s.pendingFree : Int) + (if s.loadPending then 1 else 0))
    (h2 : s.assertOK = true) : CounterInv s :=
  And.intro h1 h2

theorem resolveFresh_spec {s : Trust} (root now : Nat)
    (hg : GraphInv s.graph) (hc : CacheInv s.lru) (hcnt : CounterInv s) :
    (∀ ch, (resolveFresh s root now).1 = .ok ch →
      ch.length ≤ MAX_CHAIN_LENGTH ∧
      ∀ raw ∈ ch, ∃ lk, raw.parsed = some lk ∧ now < lk.expiration) ∧
    Inv (resolveFresh s root now).2 := by
  have hinit : ∀ it ∈ [QItem.mk root none []], ItemOK now it := by
    intro it hit
    rw [List.mem_singleton] at hit
    subst hit
    exact ⟨by simp [MAX_CHAIN_LENGTH], by simp⟩
  have hcnt2 : ∀ pr : Nat, s.dbUsed + (pr : Int) =
      ((s.pendingFree + pr : Nat) : Int) + (if s.loadPending then 1 else 0) := by
    intro pr
    rw [hcnt.1]
    push_cast
    ring
  rcases hloop : getChainLoop s.publicKey now
      ((totalEntries s.graph + 2) * (totalEntries s.graph + 2)) s.graph []
      [⟨root, none, []⟩] with _ | ⟨g1, pr, found⟩
  · simp only [resolveFresh, hloop]
    exact ⟨(fun ch h => nomatch h), Inv_intro hg hc hcnt⟩
  · have hspec := getChainLoop_spec s.publicKey now _ s.graph [] _ hg hinit g1 pr found hloop
    cases found with
    | some f =>
      obtain ⟨e, ch⟩ := f
      have hchain := hspec.2 e ch rfl
      simp only [resolveFresh, hloop]
      constructor
      · intro ch' h
        injection h with h
        subst h
        refine ⟨hchain.1, fun raw hraw => ?_⟩
        obtain ⟨lk, hp, hnow, _⟩ := hchain.2 raw hraw
        exact ⟨lk, hp, hnow⟩
      · refine Inv_intro hspec.1 ?_ (CounterInv_intro (hcnt2 pr) hcnt.2)
        intro p hp
        have hp2 := List.mem_of_mem_take hp
        rcases List.mem_cons.mp hp2 with hnew | hold
        · subst hnew
          refine ⟨hchain.1, ?_⟩
          intro raw hraw
          obtain ⟨lk, hparse, _, hle⟩ := hchain.2 raw hraw
          exact ⟨lk, hparse, hle⟩
        · exact hc p (mem_alRemove hold)
    | none =>
      simp only [resolveFresh, hloop]
      exact ⟨(fun ch h => nomatch h),
        Inv_intro hspec.1 hc (CounterInv_intro (hcnt2 pr) hcnt.2)⟩

theorem getChain_spec {s : Trust} (root now : Nat) (hinv : Inv s) :
    (∀ ch, (getChain s root now).1 = .ok ch →
      ch.length ≤ MAX_CHAIN_LENGTH ∧
      ∀ raw ∈ ch, ∃ lk, raw.parsed = some lk ∧ now < lk.expiration) ∧
    Inv (getChain s root now).2 := by
  obtain ⟨hg, hc, hcnt⟩ := hinv
  by_cases hroot : root = s.publicKey
  · simp only [getChain, if_pos hroot]
    refine ⟨?_, Inv_intro hg hc hcnt⟩
    intro ch h
    injection h with h
    subst h
    exact ⟨by simp [MAX_CHAIN_LENGTH], by simp⟩
  · simp only [getChain, if_neg hroot]
    by_cases hready : s.ready = false
    · simp only [if_pos hready]
      exact ⟨(fun ch h => nomatch h), Inv_intro hg hc hcnt⟩
    · simp only [if_neg hready]
      by_cases hnone : (alGet s.graph root).isNone = true
      · simp only [if_pos hnone]
        exact ⟨(fun ch h => nomatch h), Inv_intro hg hc hcnt⟩
      · simp only [if_neg hnone]
        rcases hcache : alGet s.lru root with _ | c
        · simp only [hcache]
          exact resolveFresh_spec root now hg hc hcnt
        · simp only [hcache]
          by_cases hfresh : now < c.expiration
          · simp only [if_pos hfresh]
            refine ⟨?_, Inv_intro hg hc hcnt⟩
            intro ch h
            injection h with h
            subst h
            have hentry := hc (root, c) (alGet_mem hcache)
            refine ⟨hentry.1, ?_⟩
            intro raw hraw
            obtain ⟨lk, hparse, hle⟩ := hentry.2 raw hraw
            exact ⟨lk, hparse, lt_of_lt_of_le hfresh hle⟩
          · simp only [if_neg hfresh]
            exact resolveFresh_spec root now hg
              (fun p hp => hc p (mem_alRemove hp)) hcnt

theorem Inv_addMemLink {s : Trust} (hinv : Inv s) (parent : Nat) {raw : RawLink}
    {link : Link} (hparse : raw.parsed = some link) :
    Inv (addMemLink s parent raw link) :=
  Inv_intro (GraphInv_addMemLink hinv.1 parent hparse) hinv.2.1 hinv.2.2

theorem Inv_addLink {s : Trust} (hinv : Inv s) (parent : Nat) {raw : RawLink}
    {link : Link} (hparse : raw.parsed = some link) (now : Nat) :
    Inv (addLink s parent raw link now) := by
  obtain ⟨hg, hc, hcnt⟩ := hinv
  unfold addLink
  split_ifs with h
  · exact Inv_intro hg hc hcnt
  · refine Inv_addMemLink
      (s := { s with dbUsed := s.dbUsed + 1, pendingFree := s.pendingFree + 1 })
      (Inv_intro hg hc (CounterInv_intro ?_ hcnt.2)) parent hparse
    show s.dbUsed + 1 = ((s.pendingFree + 1 : Nat) : Int) + _
    rw [hcnt.1]
    push_cast
    ring

theorem Inv_addChainGo (now : Nat) :
    ∀ (raws : List RawLink) (s : Trust) (prev : Nat),
      Inv s → Inv (addChainGo now s prev raws).1 := by
  intro raws
  induction raws with
  | nil => exact fun s prev h => h
  | cons raw rest ih =>
    intro s prev h
    rcases hp : raw.parsed with _ | link
    · simpa only [addChainGo, hp] using h
    · simp only [addChainGo, hp]
      exact ih _ _ (Inv_addLink h prev hp now)

theorem Inv_addChain {s : Trust} (root : Nat) (raws : List RawLink) (now : Nat)
    (hinv : Inv s) : Inv (addChain s root raws now).1 := by
  unfold addChain
  split_ifs with h
  · exact hinv
  · exact Inv_addChainGo now raws s root hinv

theorem Inv_runQueued (now : Nat) :
    ∀ (qs : List Nat) (s : Trust), Inv s → Inv (runQueued now s qs).1 := by
  intro qs
  induction qs with
  | nil => exact fun s h => h
  | cons r rest ih =>
    intro s h
    simp only [runQueued]
    exact ih _ (getChain_spec r now h).2

theorem Inv_freeDB {s : Trust} (hg : GraphInv s.graph) (hc : CacheInv s.lru)
    (h1 : s.dbUsed - 1 = (s.pendingFree : Int) + (if s.loadPending then 1 else 0))
    (h2 : s.assertOK = true) (h3 : (0 : Int) ≤ s.dbUsed - 1) : Inv (freeDB s) := by
  unfold freeDB
  split_ifs with h0 <;>
    exact Inv_intro hg hc (CounterInv_intro h1 (by rw [h2]; simpa using h3))

theorem Inv_loadEnd {s : Trust} (now : Nat) (hl : s.loadPending = true)
    (hinv : Inv s) : Inv (loadEnd s now).1 := by
  obtain ⟨hg, hc, hcnt⟩ := hinv
  have h1 : s.dbUsed = (s.pendingFree : Int) + 1 := by
    have h := hcnt.1
    rw [hl] at h
    simpa using h
  simp only [loadEnd]
  apply Inv_runQueued
  have hfree : Inv (freeDB { s with loadPending := false }) := by
    refine Inv_freeDB (s := { s with loadPending := false }) hg hc ?_ hcnt.2 ?_
    · show s.dbUsed - 1 = (s.pendingFree : Int) + _
      simp only [if_neg (by simp : ¬ (false = true))]
      omega
    · show (0 : Int) ≤ s.dbUsed - 1
      omega
  exact Inv_intro hfree.1 hfree.2.1 hfree.2.2

theorem Inv_loadError {s : Trust} (hl : s.loadPending = true)
    (hinv : Inv s) : Inv (loadError s) := by
  obtain ⟨hg, hc, hcnt⟩ := hinv
  have h1 : s.dbUsed = (s.pendingFree : Int) + 1 := by
    have h := hcnt.1
    rw [hl] at h
    simpa using h
  unfold loadError
  refine Inv_freeDB (s := { s with loadPending := false }) hg hc ?_ hcnt.2 ?_
  · show s.dbUsed - 1 = (s.pendingFree : Int) + _
    simp only [if_neg (by simp : ¬ (false = true))]
    omega
  · show (0 : Int) ≤ s.dbUsed - 1
    omega

theorem Inv_completeOne {s : Trust} (hpf : 0 < s.pendingFree)
    (hinv : Inv s) : Inv (completeOne s) := by
  obtain ⟨hg, hc, hcnt⟩ := hinv
  have hite : (if s.loadPending then (1 : Int) else 0) = 1 ∨
      (if s.loadPending then (1 : Int) else 0) = 0 := by
    split_ifs <;> simp
  have h1 := hcnt.1
  unfold completeOne
  refine Inv_freeDB (s := { s with pendingFree := s.pendingFree - 1 }) hg hc ?_ hcnt.2 ?_
  · show s.dbUsed - 1 = ((s.pendingFree - 1 : Nat) : Int) +
      (if s.loadPending then 1 else 0)
    rcases hite with h | h <;> rw [h] at h1 ⊢ <;> omega
  · show (0 : Int) ≤ s.dbUsed - 1
    rcases hite with h | h <;> rw [h] at h1 <;> omega

theorem Inv_closeOp {s : Trust} (cb : Nat) (hinv : Inv s) : Inv (closeOp s cb) := by
  obtain ⟨hg, hc, hcnt⟩ := hinv
  unfold closeOp
  split_ifs with h <;> exact Inv_intro hg hc (CounterInv_intro hcnt.1 hcnt.2)

theorem Inv_init (pk : Nat) : Inv (Trust.init pk) := by
  refine Inv_intro ?_ ?_ (CounterInv_intro ?_ rfl)
  · intro p hp
    simp [Trust.init] at hp
  · intro p hp
    simp [Trust.init] at hp
  · simp [Trust.init]

theorem reachable_inv {s : Trust} (h : Reachable s) : Inv s := by
  induction h with
  | start pk => exact Inv_init pk
  | loadData parent hparse _ _ ih => exact Inv_addMemLink ih parent hparse
  | loadDone now hl _ ih => exact Inv_loadEnd now hl ih
  | loadFail hl _ ih => exact Inv_loadError hl ih
  | add root raws now _ ih => exact Inv_addChain root raws now ih
  | query root now _ ih => exact (getChain_spec root now ih).2
  | complete hpf _ ih => exact Inv_completeOne hpf ih
  | closeReq cb _ ih => exact Inv_closeOp cb ih

theorem alGet_cons {β : Type} (a : Nat) (b : β) (t : List (Nat × β)) (k : Nat) :
    alGet ((a, b) :: t) k = if a = k then some b else alGet t k := rfl

theorem alSet_cons_ne {β : Type} (a : Nat) (b : β) (t : List (Nat × β)) (k : Nat)
    (v : β) (h : a ≠ k) : alSet ((a, b) :: t) k v = (a, b) :: alSet t k v := by
  unfold alSet
  rw [alGet_cons, if_neg h]
  split_ifs with h2
  · simp [h]
  · rfl

theorem alGet_alSet_self {β : Type} (l : List (Nat × β)) (k : Nat) (v : β) :
    alGet (alSet l k v) k = some v := by
  induction l with
  | nil => simp [alSet, alGet]
  | cons p t ih =>
    obtain ⟨a, b⟩ := p
    by_cases ha : a = k
    · subst ha
      simp [alSet, alGet_cons]
    · rw [alSet_cons_ne a b t k v ha, alGet_cons, if_neg ha]
      exact ih

theorem alGet_map_setter {β : Type} (t : List (Nat × β)) (k k' : Nat) (v : β)
    (h : k' ≠ k) :
    alGet (t.map (fun p => if p.1 = k then (k, v) else p)) k' = alGet t k' := by
  induction t with
  | nil => rfl
  | cons p t ih =>
    obtain ⟨a, b⟩ := p
    by_cases ha : a = k
    · subst ha
      simp [alGet_cons, Ne.symm h, ih]
    · simp only [List.map_cons, if_neg ha, alGet_cons]
      by_cases h2 : a = k'
      · simp [h2]
      · rw [if_neg h2, if_neg h2]
        exact ih

theorem alGet_alSet_ne {β : Type} (l : List (Nat × β)) (k k' : Nat) (v : β)
    (h : k' ≠ k) : alGet (alSet l k v) k' = alGet l k' := by
  induction l with
  | nil => simp [alSet, alGet, alGet_cons, Ne.symm h]
  | cons p t ih =>
    obtain ⟨a, b⟩ := p
    by_cases ha : a = k
    · subst ha
      have hsome : (alGet ((a, b) :: t) a).isSome = true := by
        rw [alGet_cons, if_pos rfl]
        rfl
      unfold alSet
      rw [if_pos hsome]
      simp [alGet_cons, Ne.symm h, alGet_map_setter t a k' v h]
    · rw [alSet_cons_ne a b t k v ha, alGet_cons, alGet_cons]
      by_cases h2 : a = k'
      · simp [h2]
      · rw [if_neg h2, if_neg h2]
        exact ih

theorem freeDB_pendingQueries (s : Trust) :
    (freeDB s).pendingQueries = s.pendingQueries := by
  unfold freeDB
  split_ifs <;> rfl

theorem freeDB_ready (s : Trust) : (freeDB s).ready = s.ready := by
  unfold freeDB
  split_ifs <;> rfl

theorem resolveFresh_fields (s : Trust) (root now : Nat) :
    (resolveFresh s root now).1 ≠ .queued ∧
    (resolveFresh s root now).2.pendingQueries = s.pendingQueries ∧
    (resolveFresh s root now).2.ready = s.ready := by
  rcases hloop : getChainLoop s.publicKey now
      ((totalEntries s.graph + 2) * (totalEntries s.graph + 2)) s.graph []
      [⟨root, none, []⟩] with _ | ⟨g1, pr, _ | f⟩ <;>
    simp [resolveFresh, hloop]

theorem getChain_ready_fields {s : Trust} (root now : Nat) (h : s.ready = true) :
    (getChain s root now).1 ≠ .queued ∧
    (getChain s root now).2.pendingQueries = s.pendingQueries ∧
    (getChain s root now).2.ready = true := by
  by_cases hroot : root = s.publicKey
  · simp only [getChain, if_pos hroot]
    simp [h]
  · simp only [getChain, if_neg hroot]
    rw [if_neg (by rw [h]; exact fun hh => nomatch hh)]
    by_cases hnone : (alGet s.graph root).isNone = true
    · simp only [if_pos hnone]
      simp [h]
    · simp only [if_neg hnone]
      rcases hcache : alGet s.lru root with _ | c
      · simp only [hcache]
        obtain ⟨x, y, z⟩ := resolveFresh_fields s root now
        exact ⟨x, y, by rw [z]; exact h⟩
      · simp only [hcache]
        by_cases hfresh : now < c.expiration
        · simp only [if_pos hfresh]
          simp [h]
        · simp only [if_neg hfresh]
          obtain ⟨x, y, z⟩ :=
            resolveFresh_fields { s with lru := alRemove s.lru root } root now
          exact ⟨x, y, by rw [z]; exact h⟩

theorem runQueued_events (now : Nat) :
    ∀ (qs : List Nat) (s : Trust), ((runQueued now s qs).2).map Prod.fst = qs := by
  intro qs
  induction qs with
  | nil => intro s; rfl
  | cons r rest ih =>
    intro s
    simp only [runQueued, List.map_cons]
    rw [ih]

theorem runQueued_pendingQueries (now : Nat) :
    ∀ (qs : List Nat) (s : Trust), s.ready = true →
      (runQueued now s qs).1.pendingQueries = s.pendingQueries := by
  intro qs
  induction qs with
  | nil => intro s _; rfl
  | cons r rest ih =>
    intro s h
    obtain ⟨_, hq, hr⟩ := getChain_ready_fields (s := s) r now h
    simp only [runQueued]
    rw [ih _ hr, hq]

theorem exState1_reachable : Reachable exState1 :=
  Reachable.add 1 [mkRaw 10 0 100] 50 (Reachable.loadDone 0 rfl (Reachable.start 0))

/-- C1: for every reachable engine state, any chain returned by `getChain`
— freshly resolved or served from the LRU cache — contains only links
whose expiration is strictly greater than `now` at the moment it is
returned; consequently a link whose expiration was already past when it
was added (`expiration ≤ tAdd`) can never appear in a chain returned at
any later time (`tAdd ≤ now`). -/
theorem getChain_returns_only_unexpired_links {s : Trust} (root now : Nat)
    (hs : Reachable s) {ch : List RawLink}
    (hok : (getChain s root now).1 = .ok ch) :
    ∀ raw ∈ ch, ∃ lk, raw.parsed = some lk ∧ now < lk.expiration ∧
      ∀ tAdd, lk.expiration ≤ tAdd → ¬ tAdd ≤ now := by
  intro raw hraw
  obtain ⟨lk, hp, hnow⟩ :=
    ((getChain_spec root now (reachable_inv hs)).1 ch hok).2 raw hraw
  exact ⟨lk, hp, hnow, fun tAdd hexp hle => absurd hnow (by omega)⟩

/-- Witness for C1 at a concrete reachable state and query time. -/
theorem getChain_returns_only_unexpired_links_witness :
    ∃ lk, (mkRaw 10 0 100).parsed = some lk ∧ 60 < lk.expiration ∧
      ∀ tAdd, lk.expiration ≤ tAdd → ¬ tAdd ≤ 60 :=
  getChain_returns_only_unexpired_links 1 60 exState1_reachable
    (show (getChain exState1 1 60).1 = .ok [mkRaw 10 0 100] by decide)
    (mkRaw 10 0 100) (by decide)

/-- C2 counterexample: for the existing edge (issuer 7, subject 3) the
stored link has bytes 1 and expiration 10; a newly observed raw link for
the same pair with the same expiration 10 but different bytes 2
nevertheless replaces the stored link — so an equal-expiration tie does
not keep the existing stored link, and replacement is not conditional on a
strictly greater expiration. -/
theorem addLink_equal_expiration_replaces_counterexample :
    alGet ((alGet exC2a.graph 7).getD []) 3 = some ⟨⟨3, 10⟩, mkRaw 1 3 10⟩ ∧
    alGet ((alGet exC2b.graph 7).getD []) 3 = some ⟨⟨3, 10⟩, mkRaw 2 3 10⟩ ∧
    mkRaw 2 3 10 ≠ mkRaw 1 3 10 := by decide

/-- C2 amended: adding a newly observed non-stale raw link for an
(issuer, subject) pair unconditionally overwrites the stored link for that
pair — `addChild` is a plain `Map.set`, with no comparison against the
stored expiration — while every other issuer and every other subject of
the same issuer remain unchanged; re-adding a byte-identical link stores
an identical entry, so it is a no-op on the index contents. -/
theorem addLink_always_overwrites_edge {s : Trust} (parent now : Nat)
    {raw : RawLink} {link : Link} (_hparse : raw.parsed = some link)
    (hfresh : now < link.expiration) :
    alGet ((alGet (addLink s parent raw link now).graph parent).getD [])
        link.publicKey = some ⟨link, raw⟩ ∧
    (∀ k, k ≠ parent →
      alGet (addLink s parent raw link now).graph k = alGet s.graph k) ∧
    (∀ k, k ≠ link.publicKey →
      alGet ((alGet (addLink s parent raw link now).graph parent).getD []) k =
        alGet ((alGet s.graph parent).getD []) k) := by
  have hns : ¬ link.expiration ≤ now := not_le.mpr hfresh
  refine ⟨?_, ?_, ?_⟩
  · simp only [addLink, if_neg hns, addMemLink, nodeAddChild]
    rw [alGet_alSet_self]
    simp only [Option.getD_some]
    exact alGet_alSet_self _ _ _
  · intro k hk
    simp only [addLink, if_neg hns, addMemLink, nodeAddChild]
    exact alGet_alSet_ne _ _ _ _ hk
  · intro k hk
    simp only [addLink, if_neg hns, addMemLink, nodeAddChild]
    rw [alGet_alSet_self]
    simp only [Option.getD_some]
    exact alGet_alSet_ne _ _ _ _ hk

/-- Witness for the amended C2 at a concrete engine state. -/
theorem addLink_always_overwrites_edge_witness :
    alGet ((alGet (addLink exC2a 7 (mkRaw 2 3 10) ⟨3, 10⟩ 5).graph 7).getD []) 3 =
      some ⟨⟨3, 10⟩, mkRaw 2 3 10⟩ :=
  (@addLink_always_overwrites_edge exC2a 7 5 (mkRaw 2 3 10) ⟨3, 10⟩ rfl
    (by decide)).1

/-- C3 counterexample: local key 0, root 1; the length-2 chain 1→4→0 is
added first, then the length-3 chain 1→2→3→0 (all links valid until 100,
queried at 50).  `getChain 1` returns the length-3 chain — longer than the
shorter known chain — because the stack-based traversal pops the most
recently pushed frontier node first. -/
theorem getChain_added_order_counterexample :
    (getChain (addChain (addChain exReady 1 exShortC 50).1 1 exLongC 50).1 1 50).1 =
      .ok exLongC ∧ ¬ exLongC.length ≤ 2 := by decide

set_option maxHeartbeats 1000000 in
/-- C3 amended: for every pair of valid unexpired chains with pairwise
distinct participants from the same root `r` to the local identity `L`,
one of length 3 (via `a`, `b`) and one of length 2 (via `c`), added via
`addChain` in the order length-3 first, then length-2, `getChain r`
returns the length-2 chain; in the opposite order of addition the
traversal can return the length-3 chain, so the claim does not hold for
both orders. -/
theorem getChain_prefers_short_when_long_added_first
    (r a b c L e1 e2 e3 e4 e5 now b1 b2 b3 b4 b5 : Nat)
    (h1 : now < e1) (h2 : now < e2) (h3 : now < e3) (h4 : now < e4)
    (h5 : now < e5)
    (hra : r ≠ a) (hrb : r ≠ b) (hrc : r ≠ c) (hab : a ≠ b) (hac : a ≠ c)
    (hbc : b ≠ c) (hrL : r ≠ L) (haL : a ≠ L) (_hbL : b ≠ L) (hcL : c ≠ L) :
    (getChain (addChain (addChain (loadEnd (Trust.init L) 0).1 r
        [⟨b1, some ⟨a, e1⟩⟩, ⟨b2, some ⟨b, e2⟩⟩, ⟨b3, some ⟨L, e3⟩⟩] now).1 r
        [⟨b4, some ⟨c, e4⟩⟩, ⟨b5, some ⟨L, e5⟩⟩] now).1 r now).1 =
      .ok [⟨b4, some ⟨c, e4⟩⟩, ⟨b5, some ⟨L, e5⟩⟩] ∧
    ([⟨b4, some ⟨c, e4⟩⟩, ⟨b5, some ⟨L, e5⟩⟩] : List RawLink).length ≤ 2 := by
  refine ⟨?_, by simp⟩
  simp [getChain, addChain, addChainGo, addLink, addMemLink, nodeAddChild, alSet,
    alGet, resolveFresh, getChainLoop, processChildren, totalEntries, minOpt,
    alRemove, loadEnd, freeDB, runQueued, Trust.init, MAX_CHAIN_LENGTH, LRU_SIZE,
    Nat.not_le.mpr h1, Nat.not_le.mpr h2, Nat.not_le.mpr h3, Nat.not_le.mpr h4,
    Nat.not_le.mpr h5, hra, hrb, hrc, hab, hac, hbc, hrL, haL, hcL,
    Ne.symm hra, Ne.symm hrb, Ne.symm hrc, Ne.symm hab, Ne.symm hac, Ne.symm hbc,
    Ne.symm hrL, Ne.symm haL, Ne.symm hcL]

/-- Witness for the amended C3 at concrete keys, expirations and bytes. -/
theorem getChain_prefers_short_when_long_added_first_witness :
    (getChain (addChain (addChain (loadEnd (Trust.init 0) 0).1 1
        [⟨20, some ⟨2, 100⟩⟩, ⟨21, some ⟨3, 100⟩⟩, ⟨22, some ⟨0, 100⟩⟩] 50).1 1
        [⟨30, some ⟨4, 100⟩⟩, ⟨31, some ⟨0, 100⟩⟩] 50).1 1 50).1 =
      .ok [⟨30, some ⟨4, 100⟩⟩, ⟨31, some ⟨0, 100⟩⟩] ∧
    ([⟨30, some ⟨4, 100⟩⟩, ⟨31, some ⟨0, 100⟩⟩] : List RawLink).length ≤ 2 :=
  getChain_prefers_short_when_long_added_first 1 2 3 4 0 100 100 100 100 100 50
    20 21 22 30 31 (by decide) (by decide) (by decide) (by decide) (by decide)
    (by decide) (by decide) (by decide) (by decide) (by decide) (by decide)
    (by decide) (by decide) (by decide) (by decide)

/-- C4 counterexample: in the batch [1→2, malformed, 2→0] submitted to
`addChain`, the link indexed before the failure stays indexed, but the
operation does not continue with the remaining links: the link after the
malformed one is never indexed (no node for issuer 2 exists afterwards)
and the completion callback is never scheduled. -/
theorem addChain_malformed_counterexample :
    (alGet ((alGet (addChain exReady 1
        [mkRaw 40 2 100, badRaw, mkRaw 41 0 100] 50).1.graph 1).getD [])
      2).isSome = true ∧
    alGet (addChain exReady 1
        [mkRaw 40 2 100, badRaw, mkRaw 41 0 100] 50).1.graph 2 = none ∧
    (addChain exReady 1 [mkRaw 40 2 100, badRaw, mkRaw 41 0 100] 50).2 = false := by
  decide

theorem addChainGo_malformed_aborts (now : Nat) :
    ∀ (pre : List RawLink) (s : Trust) (prev : Nat) (bad : RawLink)
      (post : List RawLink), (∀ x ∈ pre, (x.parsed).isSome = true) →
      bad.parsed = none →
      addChainGo now s prev (pre ++ bad :: post) =
        ((addChainGo now s prev pre).1, false) := by
  intro pre
  induction pre with
  | nil =>
    intro s prev bad post _ hbad
    simp only [List.nil_append, addChainGo, hbad]
  | cons x rest ih =>
    intro s prev bad post hpre hbad
    rcases hp : x.parsed with _ | link
    · exact absurd (hpre x (List.mem_cons_self _ _)) (by simp [hp])
    · simp only [List.cons_append, addChainGo, hp]
      exact ih _ _ bad post (fun y hy => hpre y (List.mem_cons_of_mem _ hy)) hbad

/-- C4 amended: a codec decode failure aborts the rest of the batch, not
just the failing link: `addChain` on `pre ++ bad :: post` (with every link
of `pre` well-formed and `bad` malformed) equals processing exactly `pre`
— the links indexed before the failure remain indexed and the index is not
otherwise disturbed — while the failing link and all subsequent links are
dropped and the completion callback is never scheduled. -/
theorem addChain_malformed_aborts {s : Trust} (root now : Nat)
    (pre : List RawLink) (bad : RawLink) (post : List RawLink)
    (hpre : ∀ x ∈ pre, (x.parsed).isSome = true) (hbad : bad.parsed = none) :
    addChain s root (pre ++ bad :: post) now =
      ((addChainGo now s root pre).1, false) := by
  unfold addChain
  rw [if_neg (by simp)]
  exact addChainGo_malformed_aborts now pre s root bad post hpre hbad

/-- Witness for the amended C4 at a concrete batch. -/
theorem addChain_malformed_aborts_witness :
    addChain exReady 1 [mkRaw 40 2 100, badRaw, mkRaw 41 0 100] 50 =
      ((addChainGo 50 exReady 1 [mkRaw 40 2 100]).1, false) :=
  addChain_malformed_aborts 1 50 [mkRaw 40 2 100] badRaw [mkRaw 41 0 100]
    (by decide) rfl

/-- C5: every chain returned by `getChain` from a reachable engine state
has length at most `MAX_CHAIN_LENGTH`, for every root and every time. -/
theorem getChain_length_le_max {s : Trust} (root now : Nat)
    (hs : Reachable s) {ch : List RawLink}
    (hok : (getChain s root now).1 = .ok ch) :
    ch.length ≤ MAX_CHAIN_LENGTH :=
  ((getChain_spec root now (reachable_inv hs)).1 ch hok).1

/-- Witness for C5 at a concrete reachable state. -/
theorem getChain_length_le_max_witness :
    ([mkRaw 10 0 100] : List RawLink).length ≤ MAX_CHAIN_LENGTH :=
  getChain_length_le_max 1 70 exState1_reachable
    (show (getChain exState1 1 70).1 = .ok [mkRaw 10 0 100] by decide)

/-- C6: `getChain` with the root equal to the local public key returns the
empty chain (never an error) and leaves the engine state untouched,
regardless of the link index, the cache, or whether loading completed. -/
theorem getChain_local_root_empty (s : Trust) (now : Nat) :
    getChain s s.publicKey now = (.ok [], s) := by
  unfold getChain
  rw [if_pos rfl]

/-- C7: `close` requested while the outstanding-operation counter is
nonzero does not issue `db.close`; the request is only deferred.  With the
counter at zero, `db.close` is issued immediately.  The completion that
brings the counter from 1 to 0 flushes the deferred queue — every deferred
close is re-attempted and, the counter now being zero, issued — while a
completion that leaves the counter nonzero issues no close. -/
theorem close_deferred_until_counter_zero :
    (∀ (s : Trust) (cb : Nat), s.dbUsed ≠ 0 →
      closeOp s cb = { s with dbQueue := s.dbQueue ++ [cb] }) ∧
    (∀ (s : Trust) (cb : Nat), s.dbUsed = 0 →
      closeOp s cb = { s with closes := s.closes ++ [cb] }) ∧
    (∀ s : Trust, s.dbUsed = 1 →
      (completeOne s).closes = s.closes ++ s.dbQueue ∧
      (completeOne s).dbQueue = [] ∧ (completeOne s).dbUsed = 0) ∧
    (∀ s : Trust, s.dbUsed ≠ 1 → (completeOne s).closes = s.closes) := by
  refine ⟨?_, ?_, ?_, ?_⟩
  · intro s cb h
    unfold closeOp
    rw [if_pos h]
  · intro s cb h
    unfold closeOp
    rw [if_neg (not_not_intro h)]
  · intro s h
    unfold completeOne freeDB
    split_ifs with h0
    · refine ⟨rfl, rfl, ?_⟩
      show s.dbUsed - 1 = 0
      omega
    · exfalso
      apply h0
      show s.dbUsed - 1 = 0
      omega
  · intro s h
    unfold completeOne freeDB
    split_ifs with h0
    · exfalso
      have h0x : s.dbUsed - 1 = 0 := h0
      omega
    · rfl

/-- Witness for C7: a fresh engine has `dbUsed = 1` (initial scan in
flight); a close request is deferred, and the completion that returns the
counter to zero issues the deferred close. -/
theorem close_deferred_until_counter_zero_witness :
    closeOp (Trust.init 9) 7 = { Trust.init 9 with dbQueue := [7] } ∧
    (completeOne (closeOp (Trust.init 9) 7)).closes = [7] ∧
    (completeOne (closeOp (Trust.init 9) 7)).dbUsed = 0 := by
  have h := close_deferred_until_counter_zero
  refine ⟨h.1 (Trust.init 9) 7 (by decide), ?_, ?_⟩
  · exact ((h.2.2.1 (closeOp (Trust.init 9) 7) (by decide)).1).trans (by decide)
  · exact (h.2.2.1 (closeOp (Trust.init 9) 7) (by decide)).2.2

/-- C8: a `getChain` issued before loading completed (other than the
local-root short-circuit) only appends the query to the pending queue —
index and cache are untouched and the caller receives no outcome yet; the
`end` of the load stream replays exactly the buffered queries, in arrival
order, each producing exactly one outcome event, and empties the queue;
and once ready a query is never buffered, so each buffered query is
executed exactly once. -/
theorem pre_ready_queries_buffered_and_replayed :
    (∀ (s : Trust) (root now : Nat), s.ready = false → root ≠ s.publicKey →
      getChain s root now =
        (.queued, { s with pendingQueries := s.pendingQueries ++ [root] })) ∧
    (∀ (s : Trust) (now : Nat),
      ((loadEnd s now).2).map Prod.fst = s.pendingQueries ∧
      (loadEnd s now).1.pendingQueries = []) ∧
    (∀ (s : Trust) (root now : Nat), s.ready = true →
      (getChain s root now).1 ≠ .queued) := by
  refine ⟨?_, ?_, ?_⟩
  · intro s root now hready hroot
    unfold getChain
    rw [if_neg hroot, if_pos hready]
  · intro s now
    constructor
    · simp only [loadEnd]
      rw [runQueued_events]
      exact freeDB_pendingQueries _
    · simp only [loadEnd]
      rw [runQueued_pendingQueries now _ _ rfl]
  · intro s root now hready
    exact (getChain_ready_fields root now hready).1

/-- Witness for C8: a fresh engine buffers the query for root 3 and the
load completion replays exactly that query. -/
theorem pre_ready_queries_buffered_and_replayed_witness :
    getChain (Trust.init 5) 3 0 =
      (.queued, { Trust.init 5 with pendingQueries := [3] }) ∧
    ((loadEnd (getChain (Trust.init 5) 3 0).2 0).2).map Prod.fst = [3] := by
  have h := pre_ready_queries_buffered_and_replayed
  refine ⟨h.1 (Trust.init 5) 3 0 rfl (by decide), ?_⟩
  exact ((h.2.1 (getChain (Trust.init 5) 3 0).2 0).1).trans (by decide)

/-- C9: `addChain` with an empty link sequence returns immediately: the
whole engine state — link index, cache, and storage counters, hence also
the KV store — is unchanged, and the completion callback is never
scheduled (the function returns before reaching `process.nextTick`). -/
theorem addChain_empty_noop (s : Trust) (root now : Nat) :
    addChain s root [] now = (s, false) := by
  unfold addChain
  rw [if_pos rfl]

/-- C10: in every reachable engine state the `assert(this._dbUsed >= 0)`
of `_freeDB` has never failed, the counter is never negative, and `dbUsed`
equals exactly the number of outstanding asynchronous completions — one
per started put/delete plus one while the initial range scan is running —
because each KV operation increments the counter exactly once when it
starts and its completion decrements it exactly once. -/
theorem dbUsed_counter_balanced {s : Trust} (hs : Reachable s) :
    s.assertOK = true ∧ (0 : Int) ≤ s.dbUsed ∧
    s.dbUsed = (s.pendingFree : Int) + (if s.loadPending then 1 else 0) := by
  obtain ⟨_, _, hcnt⟩ := reachable_inv hs
  refine ⟨hcnt.2, ?_, hcnt.1⟩
  rw [hcnt.1]
  split_ifs <;> omega

/-- Witness for C10 at a concrete reachable state. -/
theorem dbUsed_counter_balanced_witness :
    exState1.assertOK = true ∧ (0 : Int) ≤ exState1.dbUsed ∧
    exState1.dbUsed = (exState1.pendingFree : Int) +
      (if exState1.loadPending then 1 else 0) :=
  dbUsed_counter_balanced exState1_reachable

end Hyperbloom
